import Mathlib

/-!
Verification of the email template parser and message encoder in
src/sendEmail.ts (functions parseEmailTemplate, createMessage, and the
send orchestration sendEmail).

Strings are modelled as lists of characters (`Str := List Char`); the
JavaScript string operations used by the source (split on a single
character, Array.join, String.trim, first-colon header splitting) are
embedded as plain recursive functions on such lists.  The JavaScript
object holding the headers is modelled as an insertion-ordered
association list: assigning to an existing key updates its value in
place, assigning to a fresh key appends it, which is exactly the
enumeration-order behaviour of `Object.keys` on the string keys used
here.  Base64 (the standard alphabet used by `Buffer.toString('base64')`)
and the URL-safe post-processing (`+`→`-`, `/`→`_`, trailing `=`
stripped) are embedded over byte lists, together with UTF-8 encoding of
the serialized message.
-/

namespace SendEmailModel

abbrev Str := List Char

/-- Coerce a Lean string literal to the `List Char` representation. -/
def toL (s : String) : Str := s.toList

/-- Code points treated as whitespace by JavaScript's `String.prototype.trim`
(WhiteSpace and LineTerminator productions of ECMA-262). -/
def wsCodes : List Nat :=
  [9, 10, 11, 12, 13, 32, 160, 5760,
   8192, 8193, 8194, 8195, 8196, 8197, 8198, 8199, 8200, 8201, 8202,
   8232, 8233, 8239, 8287, 12288, 65279]

/-- Whether a character is whitespace in the sense of JavaScript `trim()`. -/
def isWSpace (c : Char) : Bool := wsCodes.contains c.toNat

/-- Embedding of JavaScript `s.trim()`: drop whitespace from both ends. -/
def trimStr (s : Str) : Str :=
  ((s.dropWhile isWSpace).reverse.dropWhile isWSpace).reverse

/-- Embedding of JavaScript `s.split(sep)` for a single-character separator:
`"".split(c) = [""]`, and every occurrence of the separator starts a new
(possibly empty) field. -/
def splitOnChar (sep : Char) : Str → List Str
  | [] => [[]]
  | c :: rest =>
    if c = sep then [] :: splitOnChar sep rest
    else
      match splitOnChar sep rest with
      | [] => [c :: []]
      | s :: ss => (c :: s) :: ss

/-- Embedding of JavaScript `parts.join(sep)` for a single-character
separator. -/
def joinWith (sep : Char) : List Str → Str
  | [] => []
  | [s] => s
  | s :: ss => s ++ sep :: joinWith sep ss

/-- The loop at src/sendEmail.ts:156-162: index of the first line whose
trimmed content is empty, `none` when no such line exists. -/
def findBlankIdx : List Str → Option Nat
  | [] => none
  | l :: rest =>
    if trimStr l = [] then some 0
    else (findBlankIdx rest).map (· + 1)

/-- The header object of src/sendEmail.ts, as an insertion-ordered
association list. -/
abbrev Headers := List (Str × Str)

/-- JavaScript object assignment `headers[k] = v` on string keys: an
existing key keeps its position and gets the new value, a new key is
appended at the end. -/
def setHeader (k v : Str) : Headers → Headers
  | [] => [(k, v)]
  | (k', v') :: rest =>
    if k' = k then (k', v) :: rest else (k', v') :: setHeader k v rest

/-- JavaScript property read `headers[k]` (as `Option`). -/
def getHeader (hs : Headers) (k : Str) : Option Str :=
  (hs.find? (fun p => p.1 == k)).map Prod.snd

/-- One iteration of the header loop at src/sendEmail.ts:175-180:
a line containing `:` is split on every `:`; the key is the trimmed text
before the first colon, the value is the remaining parts re-joined with
`:` and trimmed; a line with no colon contributes nothing. -/
def parseHeaderLine (hs : Headers) (line : Str) : Headers :=
  match splitOnChar ':' line with
  | [] => hs
  | [_] => hs
  | key :: rest => setHeader (trimStr key) (trimStr (joinWith ':' rest)) hs

/-- The header loop of parseEmailTemplate over all header lines. -/
def parseHeaders (lines : List Str) : Headers :=
  lines.foldl parseHeaderLine []

/-- The key/value pair a single header line contributes, if any:
`none` for a line without a colon. -/
def lineKV (l : Str) : Option (Str × Str) :=
  match splitOnChar ':' l with
  | [] => none
  | [_] => none
  | key :: rest => some (trimStr key, trimStr (joinWith ':' rest))

/-- The mandatory header fields of src/sendEmail.ts:182. -/
def mandatoryFields : List Str := [toL "From", toL "To", toL "Subject"]

/-- The truthiness test `!headers[field]` of src/sendEmail.ts:183: a field
is missing when it is absent or its value is the empty string. -/
def headerMissing (hs : Headers) (f : Str) : Bool :=
  ((getHeader hs f).getD []).isEmpty

/-- `MANDATORY_FIELDS.filter(field => !headers[field])`: the list of
missing mandatory fields, in declaration order. -/
def missingOf (hs : Headers) : List Str :=
  mandatoryFields.filter (headerMissing hs)

/-- Errors reported by parseEmailTemplate (src/sendEmail.ts:164-167 and
182-189); the field-error constructor carries the list of missing fields
printed by the error message. -/
inductive ParseError where
  | missingSeparator : ParseError
  | missingRequiredField (fields : List Str) : ParseError
deriving DecidableEq

/-- The ParsedEmail record of src/sendEmail.ts:39-42. -/
structure ParsedEmail where
  headers : Headers
  body : Str
deriving DecidableEq

/-- Embedding of parseEmailTemplate (src/sendEmail.ts:146-193) on the file
content (the file-existence check is I/O and out of scope): split on
newline, locate the first blank line, parse the preceding lines as
headers, check the mandatory fields, and re-join the remaining lines as
the body. -/
def parseEmailTemplate (content : Str) : Except ParseError ParsedEmail :=
  let lines := splitOnChar '\n' content
  match findBlankIdx lines with
  | none => .error .missingSeparator
  | some i =>
    let headerLines := lines.take i
    let bodyLines := lines.drop (i + 1)
    let headers := parseHeaders headerLines
    let missing := missingOf headers
    if missing.isEmpty then .ok ⟨headers, joinWith '\n' bodyLines⟩
    else .error (.missingRequiredField missing)

/-- The serialized form of one header entry in createMessage
(src/sendEmail.ts:203): the key, a colon, exactly one space, the value. -/
def headerLineOut (p : Str × Str) : Str :=
  p.1 ++ ':' :: ' ' :: p.2

/-- The message text built by createMessage before encoding
(src/sendEmail.ts:199-209): header lines in insertion order, one empty
part, the body, joined with newlines. -/
def serializeMessage (headers : Headers) (body : Str) : Str :=
  joinWith '\n' (headers.map headerLineOut ++ [[], body])

/-- UTF-8 encoding of a single code point (as `Buffer.from` performs on
the message string). -/
def utf8Char (n : Nat) : List Nat :=
  if n < 128 then [n]
  else if n < 2048 then [192 + n / 64, 128 + n % 64]
  else if n < 65536 then
    [224 + n / 4096, 128 + (n / 64) % 64, 128 + n % 64]
  else
    [240 + n / 262144, 128 + (n / 4096) % 64, 128 + (n / 64) % 64, 128 + n % 64]

/-- UTF-8 encoding of a string. -/
def utf8Bytes : Str → List Nat
  | [] => []
  | c :: rest => utf8Char c.toNat ++ utf8Bytes rest

/-- The standard base64 alphabet used by `Buffer.toString('base64')`. -/
def base64Chars : Str :=
  toL "ABCDEFGHIJKLMNOPQRSTUVWXYZabcdefghijklmnopqrstuvwxyz0123456789+/"

/-- The character encoding a six-bit group. -/
def b64char (n : Nat) : Char := base64Chars.getD n 'A'

/-- The six-bit value of an alphabet character. -/
def b64val (c : Char) : Nat := base64Chars.indexOf c

/-- Standard base64 encoding with `=` padding, three input bytes per
four output characters. -/
def base64Encode : List Nat → Str
  | [] => []
  | [a] => [b64char (a / 4), b64char (a % 4 * 16), '=', '=']
  | [a, b] =>
    [b64char (a / 4), b64char (a % 4 * 16 + b / 16), b64char (b % 16 * 4), '=']
  | a :: b :: c :: rest =>
    b64char (a / 4) :: b64char (a % 4 * 16 + b / 16) ::
      b64char (b % 16 * 4 + c / 64) :: b64char (c % 64) :: base64Encode rest

/-- Decoding of a final two-character (one byte) base64 group. -/
def decGroup2 (c1 c2 : Char) : List Nat :=
  [b64val c1 * 4 + b64val c2 / 16]

/-- Decoding of a final three-character (two byte) base64 group. -/
def decGroup3 (c1 c2 c3 : Char) : List Nat :=
  [b64val c1 * 4 + b64val c2 / 16, b64val c2 % 16 * 16 + b64val c3 / 4]

/-- Decoding of a full four-character (three byte) base64 group. -/
def decGroup4 (c1 c2 c3 c4 : Char) : List Nat :=
  [b64val c1 * 4 + b64val c2 / 16, b64val c2 % 16 * 16 + b64val c3 / 4,
   b64val c3 % 4 * 64 + b64val c4]

/-- Standard base64 decoding of a padded text (length a multiple of four,
`=` only in the final group). -/
def base64Decode : Str → List Nat
  | c1 :: c2 :: c3 :: c4 :: rest =>
    if c3 = '=' then decGroup2 c1 c2
    else if c4 = '=' then decGroup3 c1 c2 c3
    else decGroup4 c1 c2 c3 c4 ++ base64Decode rest
  | _ => []

/-- `replace(/\+/g, '-')` then `replace(/\//g, '_')` on one character. -/
def toUrlChar (c : Char) : Char :=
  if c = '+' then '-' else if c = '/' then '_' else c

/-- The inverse mapping `-`→`+`, `_`→`/` used when decoding the payload
(src/sendEmail.ts:252-255). -/
def fromUrlChar (c : Char) : Char :=
  if c = '-' then '+' else if c = '_' then '/' else c

/-- `replace(/=+$/, '')`: remove the trailing run of `=` characters. -/
def dropTrailingEq (s : Str) : Str :=
  ((s.reverse).dropWhile (fun c => c == '=')).reverse

/-- Re-append the `=` padding stripped by the encoder, bringing the
length back to a multiple of four. -/
def restorePad (s : Str) : Str :=
  s ++ List.replicate ((4 - s.length % 4) % 4) '='

/-- The full transport encoding of createMessage (src/sendEmail.ts:210-214):
base64, then `+`→`-`, `/`→`_`, then strip trailing `=`. -/
def base64UrlEncode (bytes : List Nat) : Str :=
  dropTrailingEq ((base64Encode bytes).map toUrlChar)

/-- The decoding direction: map `-`→`+`, `_`→`/`, restore padding, decode
standard base64. -/
def base64UrlDecode (s : Str) : List Nat :=
  base64Decode (restorePad (s.map fromUrlChar))

/-- Embedding of createMessage (src/sendEmail.ts:198-215): serialize the
headers and body and base64url-encode the UTF-8 bytes. -/
def createMessage (headers : Headers) (body : Str) : Str :=
  base64UrlEncode (utf8Bytes (serializeMessage headers body))

deriving instance DecidableEq for Except

/-! ### Splitting and joining -/

theorem splitOnChar_ne_nil (sep : Char) (s : Str) : splitOnChar sep s ≠ [] := by
  induction s with
  | nil => simp [splitOnChar]
  | cons c rest ih =>
    simp only [splitOnChar]
    by_cases h : c = sep
    · simp [h]
    · simp only [h, if_false]
      cases hs : splitOnChar sep rest with
      | nil => simp
      | cons s ss => simp

theorem splitOnChar_not_mem (sep : Char) (p : Str) (h : sep ∉ p) :
    splitOnChar sep p = [p] := by
  induction p with
  | nil => rfl
  | cons c rest ih =>
    have hc : c ≠ sep := fun he => h (he ▸ List.mem_cons_self c rest)
    have hrest : sep ∉ rest := fun hm => h (List.mem_cons_of_mem c hm)
    simp only [splitOnChar, hc, if_false, ih hrest]

theorem splitOnChar_append (sep : Char) (p rest : Str) (h : sep ∉ p) :
    splitOnChar sep (p ++ sep :: rest) = p :: splitOnChar sep rest := by
  induction p with
  | nil => simp [splitOnChar]
  | cons c p' ih =>
    have hc : c ≠ sep := fun he => h (he ▸ List.mem_cons_self c p')
    have hp' : sep ∉ p' := fun hm => h (List.mem_cons_of_mem c hm)
    simp only [List.cons_append, splitOnChar, hc, if_false, List.append_eq]
    rw [ih hp']

theorem joinWith_splitOnChar (sep : Char) (s : Str) :
    joinWith sep (splitOnChar sep s) = s := by
  induction s with
  | nil => rfl
  | cons c rest ih =>
    simp only [splitOnChar]
    by_cases h : c = sep
    · subst h
      simp only [if_true]
      cases hs : splitOnChar c rest with
      | nil => exact absurd hs (splitOnChar_ne_nil c rest)
      | cons s ss =>
        rw [hs] at ih
        simp only [joinWith]
        cases ss with
        | nil => simp only [joinWith] at ih ⊢; simp [ih]
        | cons t ts => simp only [joinWith] at ih ⊢; simp [ih]
    · simp only [h, if_false]
      cases hs : splitOnChar sep rest with
      | nil => exact absurd hs (splitOnChar_ne_nil sep rest)
      | cons s ss =>
        rw [hs] at ih
        cases ss with
        | nil => simp only [joinWith] at ih ⊢; rw [ih]
        | cons t ts => simp only [joinWith] at ih ⊢; simp [ih]

theorem splitOnChar_joinWith (sep : Char) (parts : List Str)
    (hne : parts ≠ []) (h : ∀ p ∈ parts, sep ∉ p) :
    splitOnChar sep (joinWith sep parts) = parts := by
  induction parts with
  | nil => exact absurd rfl hne
  | cons p ps ih =>
    cases ps with
    | nil =>
      simp only [joinWith]
      exact splitOnChar_not_mem sep p (h p (List.mem_cons_self p []))
    | cons q qs =>
      have hp : sep ∉ p := h p (List.mem_cons_self p (q :: qs))
      have hrest : ∀ r ∈ q :: qs, sep ∉ r := fun r hr =>
        h r (List.mem_cons_of_mem p hr)
      simp only [joinWith]
      rw [splitOnChar_append sep p (joinWith sep (q :: qs)) hp,
        ih (by simp) hrest]

/-! ### Locating the blank separator line -/

theorem findBlankIdx_append (hls bls : List Str) (sep : Str)
    (hsep : trimStr sep = [])
    (h : ∀ l ∈ hls, trimStr l ≠ []) :
    findBlankIdx (hls ++ sep :: bls) = some hls.length := by
  induction hls with
  | nil => simp [findBlankIdx, hsep]
  | cons l ls ih =>
    have hl : trimStr l ≠ [] := h l (List.mem_cons_self l ls)
    have hrest : ∀ x ∈ ls, trimStr x ≠ [] := fun x hx =>
      h x (List.mem_cons_of_mem l hx)
    simp only [List.cons_append, findBlankIdx, hl, if_false, List.append_eq,
      ih hrest, List.length_cons]
    rfl

/-! ### The header association list -/

theorem parseHeaderLine_eq (hs : Headers) (l : Str) :
    parseHeaderLine hs l =
      match lineKV l with
      | none => hs
      | some (k, v) => setHeader k v hs := by
  unfold parseHeaderLine lineKV
  cases splitOnChar ':' l with
  | nil => rfl
  | cons key rest => cases rest <;> rfl

theorem setHeader_not_mem (k v : Str) (hs : Headers)
    (h : k ∉ hs.map Prod.fst) :
    setHeader k v hs = hs ++ [(k, v)] := by
  induction hs with
  | nil => rfl
  | cons p rest ih =>
    obtain ⟨k', v'⟩ := p
    simp only [List.map_cons, List.mem_cons] at h
    push_neg at h
    simp only [setHeader, if_neg (Ne.symm h.1)]
    rw [ih h.2]
    simp

theorem parseHeaders_foldl_eq (lines : List Str) :
    ∀ acc : Headers, ((acc ++ lines.filterMap lineKV).map Prod.fst).Nodup →
      List.foldl parseHeaderLine acc lines = acc ++ lines.filterMap lineKV := by
  induction lines with
  | nil => intro acc _; simp
  | cons l rest ih =>
    intro acc h
    simp only [List.foldl_cons]
    rw [parseHeaderLine_eq]
    cases hkv : lineKV l with
    | none =>
      simp only [List.filterMap_cons, hkv] at h ⊢
      exact ih acc h
    | some p =>
      obtain ⟨k, v⟩ := p
      simp only [List.filterMap_cons, hkv] at h ⊢
      have h' := h
      rw [List.map_append, List.nodup_append] at h'
      have hk : k ∉ acc.map Prod.fst := fun hm => h'.2.2 hm (by simp)
      rw [setHeader_not_mem k v acc hk]
      rw [ih (acc ++ [(k, v)])
        (by rw [List.append_assoc, List.singleton_append]; exact h)]
      rw [List.append_assoc, List.singleton_append]

/-- When the header lines write pairwise distinct keys, the parsed header
map is exactly the list of written key/value pairs, in written order. -/
theorem parseHeaders_eq_filterMap (hls : List Str)
    (h : ((hls.filterMap lineKV).map Prod.fst).Nodup) :
    parseHeaders hls = hls.filterMap lineKV := by
  have := parseHeaders_foldl_eq hls [] (by simpa using h)
  simpa [parseHeaders] using this

theorem findBlankIdx_eq_none (lines : List Str)
    (h : ∀ l ∈ lines, trimStr l ≠ []) :
    findBlankIdx lines = none := by
  induction lines with
  | nil => rfl
  | cons l rest ih =>
    simp only [findBlankIdx, h l (List.mem_cons_self l rest), if_false,
      ih (fun x hx => h x (List.mem_cons_of_mem l hx))]
    rfl

theorem take_header_lines (hls bls : List Str) (sep : Str) :
    (hls ++ sep :: bls).take hls.length = hls :=
  List.take_left hls (sep :: bls)

theorem drop_body_lines (hls bls : List Str) (sep : Str) :
    (hls ++ sep :: bls).drop (hls.length + 1) = bls := by
  have h1 : hls ++ sep :: bls = (hls ++ [sep]) ++ bls := by simp
  have h2 : (hls ++ [sep]).length = hls.length + 1 := by simp
  rw [h1, ← h2, List.drop_left]

/-- C1: for every template text containing a separator line whose trimmed
content is empty and whose header block yields non-empty trimmed values
for From, To and Subject (the header lines writing pairwise distinct
keys), parseEmailTemplate succeeds with a header map holding exactly the
written key/value pairs and a body equal to everything after that first
blank line, line breaks preserved and untrimmed. -/
theorem claim_C1_wellformed_parse (hls bls : List Str) (sep : Str)
    (hsep : trimStr sep = []) (hnlsep : '\n' ∉ sep)
    (hnl1 : ∀ l ∈ hls, '\n' ∉ l) (hnl2 : ∀ l ∈ bls, '\n' ∉ l)
    (hblank : ∀ l ∈ hls, trimStr l ≠ [])
    (hkeys : ((hls.filterMap lineKV).map Prod.fst).Nodup)
    (hmand : ∀ f ∈ mandatoryFields,
      headerMissing (parseHeaders hls) f = false) :
    parseEmailTemplate (joinWith '\n' (hls ++ sep :: bls)) =
      .ok ⟨hls.filterMap lineKV, joinWith '\n' bls⟩ := by
  have hsplit : splitOnChar '\n' (joinWith '\n' (hls ++ sep :: bls)) =
      hls ++ sep :: bls := by
    apply splitOnChar_joinWith
    · simp
    · intro p hp
      rcases List.mem_append.mp hp with h | h
      · exact hnl1 p h
      · rcases List.mem_cons.mp h with rfl | h
        · exact hnlsep
        · exact hnl2 p h
  have hmiss : missingOf (parseHeaders hls) = [] := by
    apply List.filter_eq_nil_iff.mpr
    intro f hf
    simp [hmand f hf]
  simp only [parseEmailTemplate]
  rw [hsplit, findBlankIdx_append hls bls sep hsep hblank]
  rw [parseHeaders_eq_filterMap hls hkeys] at hmiss
  simp only [take_header_lines, drop_body_lines,
    parseHeaders_eq_filterMap hls hkeys, hmiss, List.isEmpty_nil, if_true]

/-- Witness for C1 at the spec's worked example, with a whitespace-only
(space, not empty) separator line. -/
theorem claim_C1_witness :
    parseEmailTemplate (joinWith '\n'
        ([toL "From: a@x.com", toL "To: b@x.com", toL "Subject: Hi"] ++
          toL " " :: [toL "Hello there"])) =
      .ok ⟨[(toL "From", toL "a@x.com"), (toL "To", toL "b@x.com"),
            (toL "Subject", toL "Hi")], toL "Hello there"⟩ :=
  (claim_C1_wellformed_parse
    [toL "From: a@x.com", toL "To: b@x.com", toL "Subject: Hi"]
    [toL "Hello there"] (toL " ") (by decide) (by decide) (by decide)
    (by decide) (by decide) (by decide) (by decide)).trans (by decide)

/-- C3: for every template with a separator line of empty trimmed content
whose parsed headers leave one or more mandatory fields absent or empty,
parseEmailTemplate fails with an error carrying the list of missing
fields, and that list contains a field iff it is mandatory and missing
or empty — every such field, not only the first. -/
theorem claim_C3_missing_fields (hls bls : List Str) (sep : Str)
    (hsep : trimStr sep = []) (hnlsep : '\n' ∉ sep)
    (hnl1 : ∀ l ∈ hls, '\n' ∉ l) (hnl2 : ∀ l ∈ bls, '\n' ∉ l)
    (hblank : ∀ l ∈ hls, trimStr l ≠ [])
    (hmiss : missingOf (parseHeaders hls) ≠ []) :
    parseEmailTemplate (joinWith '\n' (hls ++ sep :: bls)) =
      .error (.missingRequiredField (missingOf (parseHeaders hls))) ∧
    ∀ f, f ∈ missingOf (parseHeaders hls) ↔
      f ∈ mandatoryFields ∧ headerMissing (parseHeaders hls) f = true := by
  have hsplit : splitOnChar '\n' (joinWith '\n' (hls ++ sep :: bls)) =
      hls ++ sep :: bls := by
    apply splitOnChar_joinWith
    · simp
    · intro p hp
      rcases List.mem_append.mp hp with h | h
      · exact hnl1 p h
      · rcases List.mem_cons.mp h with rfl | h
        · exact hnlsep
        · exact hnl2 p h
  constructor
  · have hne : (missingOf (parseHeaders hls)).isEmpty = false := by
      cases hm : missingOf (parseHeaders hls) with
      | nil => exact absurd hm hmiss
      | cons a l => rfl
    simp only [parseEmailTemplate]
    rw [hsplit, findBlankIdx_append hls bls sep hsep hblank]
    simp only [take_header_lines, drop_body_lines, hne]
    simp
  · intro f
    exact List.mem_filter

/-- Witness for C3: a template whose headers give only From, separated by
a whitespace-only (space) line, so both To and Subject are reported
missing. -/
theorem claim_C3_witness :
    parseEmailTemplate (joinWith '\n'
        ([toL "From: a@x.com"] ++ toL " " :: [toL "x"])) =
      .error (.missingRequiredField [toL "To", toL "Subject"]) ∧
    toL "To" ∈ missingOf (parseHeaders [toL "From: a@x.com"]) := by
  have h := claim_C3_missing_fields [toL "From: a@x.com"] [toL "x"]
    (toL " ") (by decide) (by decide) (by decide) (by decide) (by decide)
    (by decide)
  exact ⟨h.1.trans (by decide), (h.2 (toL "To")).mpr (by decide)⟩

/-- C4: a template with no blank line anywhere fails with the
separator-not-found error; moreover the boundary located by the scan is
the first line whose trimmed content is empty. -/
theorem claim_C4_missing_separator :
    (∀ content : Str,
      (∀ l ∈ splitOnChar '\n' content, trimStr l ≠ []) →
        parseEmailTemplate content = .error .missingSeparator) ∧
    (∀ lines : List Str, ∀ i : Nat, findBlankIdx lines = some i →
      ∃ l, lines[i]? = some l ∧ trimStr l = [] ∧
        ∀ j, j < i → ∀ l', lines[j]? = some l' → trimStr l' ≠ []) := by
  constructor
  · intro content h
    simp only [parseEmailTemplate]
    rw [findBlankIdx_eq_none (splitOnChar '\n' content) h]
  · intro lines
    induction lines with
    | nil => intro i hi; simp [findBlankIdx] at hi
    | cons l rest ih =>
      intro i hi
      by_cases hl : trimStr l = []
      · simp only [findBlankIdx, hl, if_true] at hi
        obtain rfl : i = 0 := (Option.some_inj.mp hi).symm
        exact ⟨l, by simp, hl, fun j hj _ _ => absurd hj (Nat.not_lt_zero j)⟩
      · simp only [findBlankIdx, hl, if_false] at hi
        cases hrest : findBlankIdx rest with
        | none => rw [hrest] at hi; simp at hi
        | some i' =>
          rw [hrest] at hi
          simp at hi
          obtain rfl : i = i' + 1 := hi.symm
          obtain ⟨l', hget, htrim, hbefore⟩ := ih i' hrest
          refine ⟨l', by rw [List.getElem?_cons_succ]; exact hget, htrim, ?_⟩
          intro j hj l'' hget''
          cases j with
          | zero =>
            simp only [List.getElem?_cons_zero, Option.some_inj] at hget''
            exact hget'' ▸ hl
          | succ j' =>
            simp only [List.getElem?_cons_succ] at hget''
            exact hbefore j' (Nat.lt_of_succ_lt_succ hj) l'' hget''

/-- Witness for C4 at a concrete template with no blank line. -/
theorem claim_C4_witness :
    parseEmailTemplate (toL "From: a@x.com\nbody with no separator") =
      .error .missingSeparator :=
  claim_C4_missing_separator.1 (toL "From: a@x.com\nbody with no separator")
    (by decide)

theorem parseHeaderLine_split (hs : Headers) (pre post : Str)
    (hpre : ':' ∉ pre) :
    parseHeaderLine hs (pre ++ ':' :: post) =
      setHeader (trimStr pre) (trimStr post) hs := by
  unfold parseHeaderLine
  rw [splitOnChar_append ':' pre post hpre]
  cases hsp : splitOnChar ':' post with
  | nil => exact absurd hsp (splitOnChar_ne_nil ':' post)
  | cons s ss =>
    have hjoin : joinWith ':' (s :: ss) = post := by
      rw [← hsp]; exact joinWith_splitOnChar ':' post
    simp [hjoin]

theorem parseHeaderLine_no_colon (hs : Headers) (l : Str) (hl : ':' ∉ l) :
    parseHeaderLine hs l = hs := by
  unfold parseHeaderLine
  rw [splitOnChar_not_mem ':' l hl]

/-- C5: a header line with a colon is parsed with key the trimmed text
before the first colon and value everything after the first colon
(later colons retained by re-joining) trimmed; a line without a colon is
silently ignored. -/
theorem claim_C5_header_line_split :
    (∀ hs : Headers, ∀ pre post : Str, ':' ∉ pre →
      parseHeaderLine hs (pre ++ ':' :: post) =
        setHeader (trimStr pre) (trimStr post) hs) ∧
    (∀ hs : Headers, ∀ l : Str, ':' ∉ l → parseHeaderLine hs l = hs) :=
  ⟨parseHeaderLine_split, parseHeaderLine_no_colon⟩

/-- Witness for C5: a value containing further colons is kept whole, and
a colon-free line is ignored. -/
theorem claim_C5_witness :
    parseHeaderLine [] (toL "Subject" ++ ':' :: toL " re: colons") =
      setHeader (toL "Subject") (toL "re: colons") [] ∧
    parseHeaderLine [(toL "A", toL "b")] (toL "no colon here") =
      [(toL "A", toL "b")] := by
  refine ⟨?_, claim_C5_header_line_split.2 _ _ (by decide)⟩
  exact (claim_C5_header_line_split.1 [] (toL "Subject") (toL " re: colons")
    (by decide)).trans (by decide)

/-! ### Duplicate keys: the header object keeps a single, last-written
value for each key -/

theorem mem_keys_setHeader (k v x : Str) (hs : Headers)
    (h : x ∈ (setHeader k v hs).map Prod.fst) :
    x = k ∨ x ∈ hs.map Prod.fst := by
  induction hs with
  | nil =>
    simp only [setHeader, List.map_cons, List.map_nil,
      List.mem_singleton] at h
    exact Or.inl h
  | cons p rest ih =>
    obtain ⟨k', v'⟩ := p
    by_cases hk : k' = k
    · simp only [setHeader, hk, if_true] at h
      simpa [hk] using h
    · simp only [setHeader, hk, if_false, List.map_cons, List.mem_cons] at h
      rcases h with rfl | h
      · exact Or.inr (by simp)
      · rcases ih h with h' | h'
        · exact Or.inl h'
        · exact Or.inr (List.mem_cons_of_mem _ h')

theorem keys_setHeader_nodup (k v : Str) (hs : Headers)
    (h : (hs.map Prod.fst).Nodup) :
    ((setHeader k v hs).map Prod.fst).Nodup := by
  induction hs with
  | nil => simp [setHeader]
  | cons p rest ih =>
    obtain ⟨k', v'⟩ := p
    simp only [List.map_cons, List.nodup_cons] at h
    by_cases hk : k' = k
    · simp only [setHeader, hk, if_true, List.map_cons, List.nodup_cons]
      exact ⟨hk ▸ h.1, h.2⟩
    · simp only [setHeader, hk, if_false, List.map_cons, List.nodup_cons]
      refine ⟨fun hm => ?_, ih h.2⟩
      rcases mem_keys_setHeader k v k' rest hm with rfl | hm'
      · exact hk rfl
      · exact h.1 hm'

theorem parseHeaders_keys_nodup (lines : List Str) :
    ((parseHeaders lines).map Prod.fst).Nodup := by
  suffices h : ∀ acc : Headers, (acc.map Prod.fst).Nodup →
      ((List.foldl parseHeaderLine acc lines).map Prod.fst).Nodup from
    h [] (by simp)
  induction lines with
  | nil => intro acc h; simpa using h
  | cons l rest ih =>
    intro acc h
    simp only [List.foldl_cons]
    apply ih
    rw [parseHeaderLine_eq]
    cases lineKV l with
    | none => exact h
    | some p => exact keys_setHeader_nodup p.1 p.2 acc h

theorem filter_keys_not_mem (k : Str) (hs : Headers)
    (h : k ∉ hs.map Prod.fst) :
    hs.filter (fun p => p.1 == k) = [] := by
  apply List.filter_eq_nil_iff.mpr
  intro p hp hpk
  exact h (List.mem_map.mpr ⟨p, hp, (eq_of_beq hpk)⟩)

theorem filter_setHeader_same (k v : Str) (hs : Headers)
    (h : (hs.map Prod.fst).Nodup) :
    (setHeader k v hs).filter (fun p => p.1 == k) = [(k, v)] := by
  induction hs with
  | nil => simp [setHeader]
  | cons p rest ih =>
    obtain ⟨k', v'⟩ := p
    simp only [List.map_cons, List.nodup_cons] at h
    by_cases hk : k' = k
    · subst hk
      simp only [setHeader, if_true, List.filter_cons, beq_self_eq_true,
        if_true]
      rw [filter_keys_not_mem k' rest h.1]
    · simp only [setHeader, hk, if_false, List.filter_cons]
      have hbeq : (k' == k) = false := by simpa using hk
      simp only [hbeq, Bool.false_eq_true, if_false]
      exact ih h.2

theorem filter_setHeader_other (k k' v : Str) (hs : Headers)
    (hk : k' ≠ k) :
    (setHeader k' v hs).filter (fun p => p.1 == k) =
      hs.filter (fun p => p.1 == k) := by
  induction hs with
  | nil =>
    simp only [setHeader, List.filter_cons]
    have : (k' == k) = false := by simpa using hk
    simp [this]
  | cons p rest ih =>
    obtain ⟨k'', v''⟩ := p
    by_cases hkk : k'' = k'
    · subst hkk
      simp only [setHeader, if_true, List.filter_cons]
      have : (k'' == k) = false := by simpa using hk
      simp [this]
    · simp only [setHeader, hkk, if_false, List.filter_cons]
      cases hb : (k'' == k) with
      | true => simp [hb, ih]
      | false => simp [hb, ih]

theorem parseHeaderLine_none (hs : Headers) (l : Str)
    (h : lineKV l = none) : parseHeaderLine hs l = hs := by
  rw [parseHeaderLine_eq, h]

theorem parseHeaderLine_some (hs : Headers) (l k v : Str)
    (h : lineKV l = some (k, v)) :
    parseHeaderLine hs l = setHeader k v hs := by
  rw [parseHeaderLine_eq, h]

theorem parseHeaders_append_single (lines : List Str) (l : Str) :
    parseHeaders (lines ++ [l]) = parseHeaderLine (parseHeaders lines) l := by
  simp [parseHeaders, List.foldl_append]

/-- C9: when the same trimmed key is written by several header lines, the
parsed header map holds exactly one entry for that key, carrying the
value of the last such line. -/
theorem claim_C9_duplicate_last_wins (lines : List Str) (k v : Str)
    (h : ((lines.filterMap lineKV).filter (fun p => p.1 == k)).getLast? =
      some (k, v)) :
    (parseHeaders lines).filter (fun p => p.1 == k) = [(k, v)] := by
  induction lines using List.reverseRecOn with
  | nil => simp at h
  | append_singleton lines l ih =>
    rw [List.filterMap_append] at h
    cases hkv : lineKV l with
    | none =>
      rw [parseHeaders_append_single, parseHeaderLine_none _ _ hkv]
      simp only [List.filterMap_cons, List.filterMap_nil, hkv,
        List.append_nil] at h
      exact ih h
    | some p =>
      obtain ⟨k', v'⟩ := p
      rw [parseHeaders_append_single, parseHeaderLine_some _ _ _ _ hkv]
      simp only [List.filterMap_cons, List.filterMap_nil, hkv] at h
      by_cases hk : k' = k
      · have hbeq : (k' == k) = true := by simpa using hk
        rw [List.filter_append] at h
        simp only [List.filter_cons, List.filter_nil, hbeq, if_true] at h
        rw [List.getLast?_append_cons] at h
        have h2 : (k', v') = (k, v) := by simpa using h
        obtain ⟨rfl, rfl⟩ : k' = k ∧ v' = v :=
          ⟨congrArg Prod.fst h2, congrArg Prod.snd h2⟩
        exact filter_setHeader_same _ _ (parseHeaders lines)
          (parseHeaders_keys_nodup lines)
      · have hbeq : (k' == k) = false := by simpa using hk
        rw [List.filter_append] at h
        simp only [List.filter_cons, List.filter_nil, hbeq,
          Bool.false_eq_true, if_false, List.append_nil] at h
        rw [filter_setHeader_other k k' v' (parseHeaders lines) hk]
        exact ih h

/-- Witness for C9: two From lines; the parsed map holds one From entry
with the second value. -/
theorem claim_C9_witness :
    (parseHeaders [toL "From: a@x.com", toL "From: b@x.com"]).filter
        (fun p => p.1 == toL "From") = [(toL "From", toL "b@x.com")] :=
  claim_C9_duplicate_last_wins [toL "From: a@x.com", toL "From: b@x.com"]
    (toL "From") (toL "b@x.com") (by decide)

/-- C6: createMessage serializes a parsed header map as Key-colon-space-
Value lines in exactly the order the keys were written, then one blank
line, then the body verbatim. -/
theorem claim_C6_insertion_order (hls : List Str) (body : Str)
    (hkeys : ((hls.filterMap lineKV).map Prod.fst).Nodup) :
    createMessage (parseHeaders hls) body =
      base64UrlEncode (utf8Bytes (joinWith '\n'
        ((hls.filterMap lineKV).map headerLineOut ++ [[], body]))) := by
  rw [createMessage, serializeMessage, parseHeaders_eq_filterMap hls hkeys]

/-- Witness for C6: header lines written as From, To, Subject,
Content-Type serialize in that same order. -/
theorem claim_C6_witness :
    createMessage
        (parseHeaders [toL "From: a", toL "To: b", toL "Subject: s",
          toL "Content-Type: text/html"]) (toL "B") =
      base64UrlEncode (utf8Bytes
        (toL "From: a\nTo: b\nSubject: s\nContent-Type: text/html\n\nB")) :=
  (claim_C6_insertion_order
    [toL "From: a", toL "To: b", toL "Subject: s",
      toL "Content-Type: text/html"] (toL "B") (by decide)).trans (by decide)

/-- C7: createMessage is a pure, total function: every input yields an
output, and equal inputs yield equal outputs. -/
theorem claim_C7_pure_total :
    (∀ (hs : Headers) (body : Str), ∃ m : Str, createMessage hs body = m) ∧
    (∀ (hs hs' : Headers) (body body' : Str), hs = hs' → body = body' →
      createMessage hs body = createMessage hs' body') :=
  ⟨fun hs body => ⟨createMessage hs body, rfl⟩,
    fun _ _ _ _ h1 h2 => by rw [h1, h2]⟩

/-- Witness for C7 at a concrete header map and body. -/
theorem claim_C7_witness :
    createMessage [(toL "To", toL "b@x.com")] (toL "hello") =
      createMessage [(toL "To", toL "b@x.com")] (toL "hello") :=
  claim_C7_pure_total.2 _ _ _ _ rfl rfl

/-- C8: the redundant To re-check in sendEmail (src/sendEmail.ts:242-245)
can never fail: every email returned successfully by parseEmailTemplate
has a present, non-empty To header, so the error branch of the re-check
is unreachable. -/
theorem claim_C8_redundant_recheck (content : Str) (pe : ParsedEmail)
    (h : parseEmailTemplate content = .ok pe) :
    ∃ v, getHeader pe.headers (toL "To") = some v ∧ v ≠ [] := by
  simp only [parseEmailTemplate] at h
  split at h
  · cases h
  next i hb =>
    split at h
    next hm =>
      injection h with h
      subst h
      have hmem : toL "To" ∈ mandatoryFields := by decide
      have hnil :
          missingOf (parseHeaders ((splitOnChar '\n' content).take i)) = [] :=
        List.isEmpty_iff.mp hm
      have hfalse := List.filter_eq_nil_iff.mp hnil _ hmem
      cases hget :
          getHeader (parseHeaders ((splitOnChar '\n' content).take i))
            (toL "To") with
      | none => exact absurd (by simp [headerMissing, hget]) hfalse
      | some v =>
        refine ⟨v, rfl, fun hv => ?_⟩
        exact hfalse (by simp [headerMissing, hget, hv])
    next => cases h

/-- Witness for C8 at a concrete successfully parsed template. -/
theorem claim_C8_witness :
    ∃ v, getHeader
        (ParsedEmail.mk
          [(toL "From", toL "a"), (toL "To", toL "b"), (toL "Subject", toL "s")]
          (toL "x")).headers (toL "To") = some v ∧ v ≠ [] :=
  claim_C8_redundant_recheck (toL "From: a\nTo: b\nSubject: s\n\nx")
    ⟨[(toL "From", toL "a"), (toL "To", toL "b"), (toL "Subject", toL "s")],
      toL "x"⟩ (by decide)

/-! ### Exactly one space after the serialized colon -/

theorem mem_trimStr (c : Char) (s : Str) (h : c ∈ trimStr s) : c ∈ s := by
  unfold trimStr at h
  rw [List.mem_reverse] at h
  have h1 : c ∈ (s.dropWhile isWSpace).reverse :=
    (List.dropWhile_sublist _).mem h
  rw [List.mem_reverse] at h1
  exact (List.dropWhile_sublist _).mem h1

theorem append_colon_inj (a x : Str) : ∀ b y : Str, ':' ∉ a → ':' ∉ b →
    a ++ ':' :: x = b ++ ':' :: y → a = b ∧ x = y := by
  induction a with
  | nil =>
    intro b y _ hb h
    cases b with
    | nil => simpa using h
    | cons c b' =>
      simp only [List.nil_append, List.cons_append, List.cons.injEq] at h
      exact absurd (h.1 ▸ List.mem_cons_self c b') hb
  | cons c a' ih =>
    intro b y ha hb h
    cases b with
    | nil =>
      simp only [List.cons_append, List.nil_append, List.cons.injEq] at h
      exact absurd (h.1 ▸ List.mem_cons_self c a') ha
    | cons d b' =>
      simp only [List.cons_append, List.cons.injEq] at h
      obtain ⟨rfl, h2⟩ := h
      have ha' : ':' ∉ a' := fun hm => ha (List.mem_cons_of_mem c hm)
      have hb' : ':' ∉ b' := fun hm => hb (List.mem_cons_of_mem c hm)
      obtain ⟨rfl, rfl⟩ := ih b' y ha' hb' h2
      exact ⟨rfl, rfl⟩

/-- C10: a serialized header line always carries exactly one space after
the colon — an empty value yields a trailing space — so a parsed header
line whose text after the first colon is not exactly one space followed
by its trimmed value serializes differently from the original line. -/
theorem claim_C10_one_space_after_colon :
    (∀ k : Str, headerLineOut (k, []) = k ++ [':', ' ']) ∧
    (∀ pre post : Str, ':' ∉ pre → post ≠ ' ' :: trimStr post →
      (parseHeaders [pre ++ ':' :: post]).map headerLineOut ≠
        [pre ++ ':' :: post]) := by
  constructor
  · intro k; rfl
  · intro pre post hpre hpost heq
    have hline : parseHeaders [pre ++ ':' :: post] =
        [(trimStr pre, trimStr post)] := by
      have h1 : parseHeaders [pre ++ ':' :: post] =
          parseHeaderLine [] (pre ++ ':' :: post) := rfl
      rw [h1, parseHeaderLine_split [] pre post hpre]
      rfl
    rw [hline] at heq
    simp only [List.map_cons, List.map_nil, headerLineOut,
      List.cons.injEq, and_true] at heq
    have htrimpre : ':' ∉ trimStr pre := fun hm => hpre (mem_trimStr _ _ hm)
    obtain ⟨-, h2⟩ := append_colon_inj (trimStr pre) (' ' :: trimStr post)
      pre post htrimpre hpre heq
    exact hpost h2.symm

/-- Witness for C10: an empty value gets a trailing space, and a line
with no space after the colon does not serialize back to itself. -/
theorem claim_C10_witness :
    headerLineOut (toL "X-Empty", []) = toL "X-Empty" ++ [':', ' '] ∧
    (parseHeaders [toL "From" ++ ':' :: toL "a@x"]).map headerLineOut ≠
      [toL "From" ++ ':' :: toL "a@x"] :=
  ⟨claim_C10_one_space_after_colon.1 (toL "X-Empty"),
    claim_C10_one_space_after_colon.2 (toL "From") (toL "a@x")
      (by decide) (by decide)⟩

/-! ### Base64url round trip -/

theorem char_toNat_lt (c : Char) : c.toNat < 1114112 := by
  have h := c.valid
  rcases h with h | ⟨_, h⟩
  · exact Nat.lt_trans h (by norm_num)
  · exact h

theorem utf8Char_lt (n : Nat) (hn : n < 1114112) :
    ∀ b ∈ utf8Char n, b < 256 := by
  intro b hb
  unfold utf8Char at hb
  by_cases h1 : n < 128
  · simp only [h1, if_true, List.mem_singleton] at hb
    omega
  · simp only [h1, if_false] at hb
    by_cases h2 : n < 2048
    · simp only [h2, if_true, List.mem_cons, List.mem_singleton] at hb
      rcases hb with rfl | rfl | h
      · omega
      · omega
      · simp at h
    · simp only [h2, if_false] at hb
      by_cases h3 : n < 65536
      · simp only [h3, if_true, List.mem_cons, List.mem_singleton] at hb
        rcases hb with rfl | rfl | rfl | h
        · omega
        · omega
        · omega
        · simp at h
      · simp only [h3, if_false, List.mem_cons, List.mem_singleton] at hb
        rcases hb with rfl | rfl | rfl | rfl | h
        · omega
        · omega
        · omega
        · omega
        · simp at h

theorem utf8Bytes_lt (s : Str) : ∀ b ∈ utf8Bytes s, b < 256 := by
  induction s with
  | nil => intro b hb; simp [utf8Bytes] at hb
  | cons c t ih =>
    intro b hb
    simp only [utf8Bytes, List.mem_append] at hb
    rcases hb with hb | hb
    · exact utf8Char_lt c.toNat (char_toNat_lt c) b hb
    · exact ih b hb

theorem b64char_mem (n : Nat) : b64char n ∈ base64Chars := by
  unfold b64char List.getD
  cases hg : base64Chars.get? n with
  | none => simp [hg]; decide
  | some c =>
    simp only [hg, Option.getD_some]
    exact List.get?_mem hg

theorem pad_not_mem_base64Chars : '=' ∉ base64Chars := by decide

theorem b64char_ne_pad (n : Nat) : b64char n ≠ '=' := fun h =>
  pad_not_mem_base64Chars (h ▸ b64char_mem n)

theorem b64val_b64char : ∀ n < 64, b64val (b64char n) = n := by decide

theorem encode_chars : ∀ (bytes : List Nat), ∀ c ∈ base64Encode bytes,
    c ∈ base64Chars ∨ c = '='
  | [], c, hc => by simp [base64Encode] at hc
  | [a], c, hc => by
    simp only [base64Encode, List.mem_cons, List.mem_singleton] at hc
    rcases hc with rfl | rfl | rfl | rfl | h
    · exact Or.inl (b64char_mem _)
    · exact Or.inl (b64char_mem _)
    · exact Or.inr rfl
    · exact Or.inr rfl
    · simp at h
  | [a, b], c, hc => by
    simp only [base64Encode, List.mem_cons, List.mem_singleton] at hc
    rcases hc with rfl | rfl | rfl | rfl | h
    · exact Or.inl (b64char_mem _)
    · exact Or.inl (b64char_mem _)
    · exact Or.inl (b64char_mem _)
    · exact Or.inr rfl
    · simp at h
  | a :: b :: d :: rest, c, hc => by
    simp only [base64Encode, List.mem_cons] at hc
    rcases hc with rfl | rfl | rfl | rfl | h
    · exact Or.inl (b64char_mem _)
    · exact Or.inl (b64char_mem _)
    · exact Or.inl (b64char_mem _)
    · exact Or.inl (b64char_mem _)
    · exact encode_chars rest c h

theorem toUrlChar_eq_pad (c : Char) : (toUrlChar c == '=') = (c == '=') := by
  unfold toUrlChar
  by_cases h1 : c = '+'
  · subst h1; rfl
  · by_cases h2 : c = '/'
    · subst h2; rfl
    · simp [h1, h2]

theorem dropTrailingEq_map_comm (l : Str) (f : Char → Char)
    (hf : ∀ c, (f c == '=') = (c == '=')) :
    dropTrailingEq (l.map f) = (dropTrailingEq l).map f := by
  unfold dropTrailingEq
  rw [← List.map_reverse, List.dropWhile_map]
  have hcong : l.reverse.dropWhile ((fun c => c == '=') ∘ f) =
      l.reverse.dropWhile (fun c => c == '=') := by
    congr 1
    funext c
    exact hf c
  rw [hcong, ← List.map_reverse]

theorem url_roundtrip_alpha : ∀ c ∈ base64Chars,
    fromUrlChar (toUrlChar c) = c := by decide

theorem map_from_to_url (l : Str)
    (h : ∀ c ∈ l, c ∈ base64Chars ∨ c = '=') :
    (l.map toUrlChar).map fromUrlChar = l := by
  induction l with
  | nil => rfl
  | cons c t ih =>
    simp only [List.map_cons, List.cons.injEq]
    constructor
    · rcases h c (List.mem_cons_self c t) with hc | rfl
      · exact url_roundtrip_alpha c hc
      · rfl
    · exact ih (fun x hx => h x (List.mem_cons_of_mem c hx))

theorem mem_dropTrailingEq (c : Char) (l : Str)
    (h : c ∈ dropTrailingEq l) : c ∈ l := by
  unfold dropTrailingEq at h
  rw [List.mem_reverse] at h
  have h1 := (List.dropWhile_sublist _).mem h
  rwa [List.mem_reverse] at h1

theorem encode_structure : ∀ bytes : List Nat, ∃ core k,
    base64Encode bytes = core ++ List.replicate k '=' ∧
    '=' ∉ core ∧ k < 4 ∧ (core.length + k) % 4 = 0
  | [] => ⟨[], 0, rfl, by simp, by omega, by simp⟩
  | [a] =>
    ⟨[b64char (a / 4), b64char (a % 4 * 16)], 2, rfl, by
      simp only [List.mem_cons, List.mem_singleton]
      rintro (h | h | h)
      · exact b64char_ne_pad _ h.symm
      · exact b64char_ne_pad _ h.symm
      · simp at h, by omega, by simp⟩
  | [a, b] =>
    ⟨[b64char (a / 4), b64char (a % 4 * 16 + b / 16), b64char (b % 16 * 4)],
      1, rfl, by
      simp only [List.mem_cons, List.mem_singleton]
      rintro (h | h | h | h)
      · exact b64char_ne_pad _ h.symm
      · exact b64char_ne_pad _ h.symm
      · exact b64char_ne_pad _ h.symm
      · simp at h, by omega, by simp⟩
  | a :: b :: c :: rest => by
    obtain ⟨core, k, hE, hcore, hk, hlen⟩ := encode_structure rest
    refine ⟨b64char (a / 4) :: b64char (a % 4 * 16 + b / 16) ::
      b64char (b % 16 * 4 + c / 64) :: b64char (c % 64) :: core, k, ?_, ?_,
      hk, ?_⟩
    · simp only [base64Encode, hE, List.cons_append]
    · simp only [List.mem_cons]
      rintro (h | h | h | h | h)
      · exact b64char_ne_pad _ h.symm
      · exact b64char_ne_pad _ h.symm
      · exact b64char_ne_pad _ h.symm
      · exact b64char_ne_pad _ h.symm
      · exact hcore h
    · simp only [List.length_cons]
      omega

theorem dropWhile_pad_replicate (k : Nat) (l : Str) :
    (List.replicate k '=' ++ l).dropWhile (fun c => c == '=') =
      l.dropWhile (fun c => c == '=') := by
  induction k with
  | zero => rfl
  | succ k ih =>
    simp only [List.replicate_succ, List.cons_append, List.dropWhile_cons]
    simp [ih]

theorem dropTrailingEq_core_pad (core : Str) (k : Nat) (hcore : '=' ∉ core) :
    dropTrailingEq (core ++ List.replicate k '=') = core := by
  unfold dropTrailingEq
  rw [List.reverse_append, List.reverse_replicate, dropWhile_pad_replicate]
  cases hrev : core.reverse with
  | nil =>
    have : core = [] := by
      have := congrArg List.reverse hrev
      simpa using this
    simp [this, hrev]
  | cons a t =>
    have ha : a ∈ core := by
      rw [← List.mem_reverse, hrev]
      exact List.mem_cons_self a t
    have hne : (a == '=') = false := by
      simp only [beq_eq_false_iff_ne, ne_eq]
      exact fun h => hcore (h ▸ ha)
    rw [List.dropWhile_cons, hne]
    simp only [Bool.false_eq_true, if_false]
    have h1 := congrArg List.reverse hrev
    have h2 : core = t.reverse ++ [a] := by simpa using h1
    simp [h2]

theorem restorePad_core (core : Str) (k : Nat) (hk : k < 4)
    (hlen : (core.length + k) % 4 = 0) :
    restorePad core = core ++ List.replicate k '=' := by
  unfold restorePad
  congr 1
  congr 1
  omega

theorem decode_encode : ∀ bytes : List Nat, (∀ b ∈ bytes, b < 256) →
    base64Decode (base64Encode bytes) = bytes
  | [], _ => rfl
  | [a], h => by
    have ha : a < 256 := h a (List.mem_cons_self a [])
    simp only [base64Encode, base64Decode, if_pos rfl, decGroup2]
    rw [b64val_b64char (a / 4) (by omega), b64val_b64char (a % 4 * 16) (by omega)]
    simp only [if_true, List.cons.injEq, and_true]
    omega
  | [a, b], h => by
    have ha : a < 256 := h a (by simp)
    have hb : b < 256 := h b (by simp)
    simp only [base64Encode, base64Decode,
      if_neg (b64char_ne_pad (b % 16 * 4)), if_pos rfl, decGroup3]
    rw [b64val_b64char (a / 4) (by omega),
      b64val_b64char (a % 4 * 16 + b / 16) (by omega),
      b64val_b64char (b % 16 * 4) (by omega)]
    simp only [if_true, List.cons.injEq, and_true]
    omega
  | a :: b :: c :: rest, h => by
    have ha : a < 256 := h a (by simp)
    have hb : b < 256 := h b (by simp)
    have hc : c < 256 := h c (by simp)
    have hrest : ∀ x ∈ rest, x < 256 := fun x hx =>
      h x (by simp [hx])
    simp only [base64Encode, base64Decode,
      if_neg (b64char_ne_pad (b % 16 * 4 + c / 64)),
      if_neg (b64char_ne_pad (c % 64)), decGroup4]
    rw [decode_encode rest hrest]
    rw [b64val_b64char (a / 4) (by omega),
      b64val_b64char (a % 4 * 16 + b / 16) (by omega),
      b64val_b64char (b % 16 * 4 + c / 64) (by omega),
      b64val_b64char (c % 64) (by omega)]
    simp only [List.cons_append, List.nil_append, List.cons.injEq]
    refine ⟨by omega, by omega, by omega, trivial⟩

theorem base64Url_roundtrip (bytes : List Nat)
    (h : ∀ b ∈ bytes, b < 256) :
    base64UrlDecode (base64UrlEncode bytes) = bytes := by
  obtain ⟨core, k, hE, hcore, hk, hlen⟩ := encode_structure bytes
  unfold base64UrlEncode base64UrlDecode
  rw [dropTrailingEq_map_comm _ toUrlChar toUrlChar_eq_pad]
  rw [map_from_to_url (dropTrailingEq (base64Encode bytes))
    (fun c hc => encode_chars bytes c
      (mem_dropTrailingEq c (base64Encode bytes) hc))]
  rw [hE, dropTrailingEq_core_pad core k hcore,
    restorePad_core core k hk hlen, ← hE]
  exact decode_encode bytes h

/-- C2: base64url-decoding the output of createMessage (`-`→`+`, `_`→`/`,
padding restored, standard base64 decoded) reproduces byte-for-byte the
UTF-8 serialization of the header lines, blank line and body. -/
theorem claim_C2_encoding_roundtrip (headers : Headers) (body : Str) :
    base64UrlDecode (createMessage headers body) =
      utf8Bytes (serializeMessage headers body) := by
  unfold createMessage
  exact base64Url_roundtrip _ (utf8Bytes_lt (serializeMessage headers body))

example :
    parseEmailTemplate (toL "From: a@x.com\nTo: b@x.com\nSubject: Hi\n\nHello there") =
      .ok ⟨[(toL "From", toL "a@x.com"), (toL "To", toL "b@x.com"),
            (toL "Subject", toL "Hi")], toL "Hello there"⟩ := by decide

example :
    parseEmailTemplate (toL "From: a@x.com\nbody only") =
      .error .missingSeparator := by decide

example :
    parseEmailTemplate (toL "From: a@x.com\n\nHello") =
      .error (.missingRequiredField [toL "To", toL "Subject"]) := by decide

example :
    base64UrlDecode (base64UrlEncode [72, 105, 33, 63]) = [72, 105, 33, 63] := by
  decide

end SendEmailModel
